import Mathlib

/-!
Verification of the clicktsdb inverted-index core (fts crate) and of the
ingestion buffer of the storage crate, against the natural-language
specification of the repository.

The Rust sources are shallowly embedded: byte strings (`&[u8]`, file
contents) become `List Nat` with each element below 256, `u64` values become
`Nat` with explicit `% 2 ^ 64` wherever overflow could matter, hash maps
become association lists, and fallible operations return `Option` or
`Except`.  Iteration order of `hashbrown::HashMap`/`HashSet` is unspecified
in Rust; wherever it can influence a result this development either models
it as key-insertion order and says so, or quantifies over the order.
-/

set_option maxHeartbeats 1000000

namespace ClickTsdb

/-- Terms (`&[u8]` keys of the term dictionary) are byte lists. -/
abbrev Term := List Nat

/-- DocId is `u64` in `fts/src/core.rs`; the code never does arithmetic on
doc ids, so `Nat` models it (bounds appear as hypotheses where serialization
needs them). -/
abbrev DocId := Nat

/-- Size of a `u64` on disk, `U64_NUM_BYTE` in `postings.rs`/`doc_store.rs`. -/
def U64_NUM_BYTE : Nat := 8

/-- Little-endian rendering of the low `k` bytes of `n`. -/
def natLeBytes : Nat → Nat → List Nat
  | 0, _ => []
  | k + 1, n => n % 256 :: natLeBytes k (n / 256)

/-- Little-endian 8-byte rendering, `u64::to_le_bytes`. -/
def u64le (n : Nat) : List Nat := natLeBytes 8 n

/-- Little-endian value of a byte list, `u64::from_le_bytes` direction. -/
def leVal : List Nat → Nat
  | [] => 0
  | b :: bs => b + 256 * leVal bs

/-- Read a `u64` at byte offset `off`; `none` models an out-of-bounds read
(an I/O error or slice panic in the Rust code). -/
def readU64 (bs : List Nat) (off : Nat) : Option Nat :=
  let chunk := (bs.drop off).take U64_NUM_BYTE
  if chunk.length = U64_NUM_BYTE then some (leVal chunk) else none

theorem natLeBytes_length (k : Nat) : ∀ n, (natLeBytes k n).length = k := by
  induction k with
  | zero => intro n; rfl
  | succ k ih => intro n; simp [natLeBytes, ih]

theorem u64le_length (n : Nat) : (u64le n).length = 8 :=
  natLeBytes_length 8 n

theorem mod_mul_256 (n B : Nat) (hB : 0 < B) :
    n % (256 * B) = n % 256 + 256 * (n / 256 % B) := by
  have h1 : n = (n % 256 + 256 * (n / 256 % B)) + 256 * B * (n / 256 / B) := by
    have e2 : B * (n / 256 / B) + n / 256 % B = n / 256 := Nat.div_add_mod _ B
    calc n = 256 * (n / 256) + n % 256 := (Nat.div_add_mod n 256).symm
    _ = 256 * (B * (n / 256 / B) + n / 256 % B) + n % 256 := by rw [e2]
    _ = (n % 256 + 256 * (n / 256 % B)) + 256 * B * (n / 256 / B) := by ring
  have r1 : n % 256 < 256 := Nat.mod_lt _ (by norm_num)
  have r2 : n / 256 % B < B := Nat.mod_lt _ hB
  have hlt : n % 256 + 256 * (n / 256 % B) < 256 * B := by omega
  conv_lhs => rw [h1]
  rw [Nat.add_mul_mod_self_left, Nat.mod_eq_of_lt hlt]

theorem leVal_natLeBytes (k : Nat) : ∀ n, leVal (natLeBytes k n) = n % 256 ^ k := by
  induction k with
  | zero => intro n; simp [natLeBytes, leVal, Nat.mod_one]
  | succ k ih =>
    intro n
    have h256 : (256 : Nat) ^ (k + 1) = 256 * 256 ^ k := by ring
    rw [natLeBytes, leVal, ih (n / 256), h256,
      mod_mul_256 n (256 ^ k) (Nat.pos_pow_of_pos k (by norm_num))]

theorem leVal_u64le (n : Nat) (h : n < 2 ^ 64) : leVal (u64le n) = n := by
  have h8 : (256 : Nat) ^ 8 = 2 ^ 64 := by norm_num
  rw [u64le, leVal_natLeBytes, h8, Nat.mod_eq_of_lt h]

/-- Reading a `u64` laid down by `u64le` at the end of a known prefix
recovers its value. -/
theorem readU64_append (pre : List Nat) (n : Nat) (suf : List Nat) (h : n < 2 ^ 64) :
    readU64 (pre ++ (u64le n ++ suf)) pre.length = some n := by
  have hdrop : (pre ++ (u64le n ++ suf)).drop pre.length = u64le n ++ suf :=
    List.drop_left pre _
  have htake : (u64le n ++ suf).take 8 = u64le n :=
    List.take_left' (u64le_length n)
  simp only [readU64, U64_NUM_BYTE, hdrop, htake, u64le_length]
  simp [leVal_u64le n h]

/-- Serialization of a `&[u64]` by `bincode::serialize` under the legacy
bincode 1.x options used by the crate-root function (fixed-width integers,
little-endian): a u64 element count followed by the elements. -/
def bincodeVecU64 (l : List Nat) : List Nat := u64le l.length ++ (l.map u64le).flatten

/-- Record-writing loop of `Postings::new` (postings.rs, lines 79-87):
starting at `off`, each `(term, list)` contributes the FST pair `(term, off)`
and the record `size_le ‖ payload` to `postings.list`, and the running offset
advances by `U64_NUM_BYTE + payload.len()`. -/
def postingsRecords : List (Term × List DocId) → Nat → List (Term × Nat) × List Nat
  | [], _ => ([], [])
  | (t, list) :: rest, off =>
    let payload := bincodeVecU64 list
    let tail := postingsRecords rest (off + U64_NUM_BYTE + payload.length)
    ((t, off) :: tail.1, (u64le payload.length ++ payload) ++ tail.2)

/-- Vec::sort of a posting list in `Postings::new` (`list.sort()`): ascending,
stable, and with no duplicate removal. -/
def sortDocIds (l : List DocId) : List DocId := l.insertionSort (· ≤ ·)

/-- Term-key sort `terms.sort_unstable_by_key(|(term, _)| *term)` of
`Postings::new`; keys come from a HashMap and are therefore distinct, so the
stable model sort agrees with Rust's unstable sort. -/
def sortByTermKey (l : List (Term × List DocId)) : List (Term × List DocId) :=
  l.insertionSort (fun a b => a.1 ≤ b.1)

/-- Postings::new (postings.rs): sort every per-term posting list, sort the
term keys, then stream the FST pairs and the `postings.list` bytes.  The
result is the FST content (term ↦ offset, in insertion order, which is
ascending term order) and the bytes of `postings.list`. -/
def Postings.new (termDict : List (Term × List DocId)) : List (Term × Nat) × List Nat :=
  postingsRecords (sortByTermKey (termDict.map fun p => (p.1, sortDocIds p.2))) 0

/-- Fixed-count u64 reader used to model bincode element decoding. -/
def readU64List (bs : List Nat) (off : Nat) : Nat → Option (List Nat)
  | 0 => some []
  | k + 1 => do
    let v ← readU64 bs off
    let rest ← readU64List bs (off + U64_NUM_BYTE) (k : Nat)
    some (v :: rest)

/-- bincode deserialization of a `Vec<u64>`: u64 element count, then that
many fixed-width little-endian elements. -/
def bincodeReadVecU64 (payload : List Nat) : Option (List Nat) := do
  let n ← readU64 payload 0
  readU64List payload U64_NUM_BYTE n

/-- Postings::postings (postings.rs, lines 150-159): read the u64 record size
at `offset`, slice the payload, deserialize the posting list.  An
out-of-bounds slice (a panic in Rust) is modelled as `none`. -/
def Postings.postings (file : List Nat) (offset : Nat) : Option (List DocId) := do
  let size ← readU64 file offset
  let payload := (file.drop (offset + U64_NUM_BYTE)).take size
  if payload.length = size then bincodeReadVecU64 payload else none

/-- Document (fts/src/core.rs): `(DocId, content_bytes, terms)`. -/
structure DocumentM where
  id : DocId
  content : List Nat
  terms : List Term
deriving DecidableEq

/-- HashMap entry update of `WritableSegment::insert`: push the doc id onto an
existing posting list (`and_modify`) or start a fresh singleton
(`or_insert(vec![document.id])`).  The hash map is modelled as an association
list in key-insertion order; `Postings::new` later sorts the keys, so the
model order never reaches a result. -/
def termsUpsert (m : List (Term × List DocId)) (t : Term) (id : DocId) :
    List (Term × List DocId) :=
  match m with
  | [] => [(t, [id])]
  | (k, v) :: rest =>
    if k = t then (k, v ++ [id]) :: rest else (k, v) :: termsUpsert rest t id

/-- HashMap insert of `self.documents.insert(document.id, document.content)`:
last write wins. -/
def docsUpsert (m : List (DocId × List Nat)) (id : DocId) (c : List Nat) :
    List (DocId × List Nat) :=
  match m with
  | [] => [(id, c)]
  | (k, v) :: rest =>
    if k = id then (k, c) :: rest else (k, v) :: docsUpsert rest id c

/-- WritableSegment (segment.rs): term dictionary, document store and byte
counter of the in-memory accumulator. -/
structure WritableSegmentM where
  terms : List (Term × List DocId)
  documents : List (DocId × List Nat)
  numBytes : Nat
deriving DecidableEq

def WritableSegmentM.empty : WritableSegmentM := ⟨[], [], 0⟩

/-- Body of the per-document loop of `WritableSegment::insert`. -/
def insertOneDoc (ws : WritableSegmentM) (d : DocumentM) : WritableSegmentM :=
  { terms := d.terms.foldl (fun m t => termsUpsert m t d.id) ws.terms
    documents := docsUpsert ws.documents d.id d.content
    numBytes := ws.numBytes + d.content.length }

/-- WritableSegment::insert (segment.rs, lines 36-48). -/
def WritableSegmentM.insert (ws : WritableSegmentM) (ds : List DocumentM) :
    WritableSegmentM :=
  ds.foldl insertOneDoc ws

/-- C2: inserting the same DocId twice with the same term and finalizing
leaves the duplicate in the stored posting list.  `Postings::new` only runs
`list.sort()` — the dedup announced by the spec (and by the TODO comment in
`WritableSegment::into_segment`) never happens — so the list read back for
term `[97]` is `[1, 1]`, which is not strictly ascending. -/
theorem postings_duplicate_docid_survives_finalization :
    (Postings.new (WritableSegmentM.insert WritableSegmentM.empty
      [⟨1, [120], [[97]]⟩, ⟨1, [121], [[97]]⟩]).terms).1 = [([97], 0)] ∧
    Postings.postings (Postings.new (WritableSegmentM.insert WritableSegmentM.empty
      [⟨1, [120], [[97]]⟩, ⟨1, [121], [[97]]⟩]).terms).2 0 = some [1, 1] ∧
    ¬ List.Pairwise (· < ·) [1, 1] := by
  refine ⟨by decide, by decide, by simp [List.pairwise_cons]⟩

/-- Term matchers of `matcher.rs` that the claims exercise.  `Fuzzy` and
`Regex` compile to external automata (Levenshtein, dense DFA) and are not
needed by any claim, so they are left out of the model. -/
inductive TermMatcherM where
  | all : TermMatcherM
  | equal : Term → TermMatcherM
  | startsWith : Term → TermMatcherM
deriving DecidableEq

/-- Matcher (matcher.rs): a term matcher plus a complement flag. -/
structure MatcherM where
  termMatcher : TermMatcherM
  complement : Bool
deriving DecidableEq

/-- Query (query.rs), restricted to the variants whose matchers are modelled. -/
inductive QueryM where
  | all : QueryM
  | equal : Term → QueryM
  | notEqual : Term → QueryM
  | startsWith : Term → QueryM
  | notStartsWith : Term → QueryM
  | or : QueryM → QueryM → QueryM
  | and : QueryM → QueryM → QueryM
deriving DecidableEq

/-- Query::matcher (query.rs): leaves compile to a matcher, boolean nodes
return `QueryNotSupported` (modelled as `none`). -/
def QueryM.matcher : QueryM → Option MatcherM
  | .all => some ⟨.all, false⟩
  | .equal t => some ⟨.equal t, false⟩
  | .notEqual t => some ⟨.equal t, true⟩
  | .startsWith t => some ⟨.startsWith t, false⟩
  | .notStartsWith t => some ⟨.startsWith t, true⟩
  | .or _ _ => none
  | .and _ _ => none

/-- Byte-list prefix test, the matching set of the `Str::new(term).starts_with()`
automaton: first argument is the required prefix. -/
def listHasPfx : Term → Term → Bool
  | [], _ => true
  | _ :: _, [] => false
  | a :: as, b :: bs => a == b && listHasPfx as bs

def termMatches (tm : TermMatcherM) (t : Term) : Bool :=
  match tm with
  | .all => true
  | .equal s => t == s
  | .startsWith s => listHasPfx s t

/-- Postings::search / search_automaton (postings.rs): select the FST entries
whose term matches the automaton, or the complement of that set when the
matcher is complemented.  The FST streams entries in term order, i.e. the
order of the stored list. -/
def searchFst (fst : List (Term × Nat)) (m : MatcherM) : List (Term × Nat) :=
  fst.filter (fun p => termMatches m.termMatcher p.1 != m.complement)

/-- HashSet::insert of `fetch_doc_ids`: a repeated id is dropped.  hashbrown
iteration order is arbitrary; the model keeps first-insertion order, and every
claim that depends on the order evaluates it only on singleton sets, where
all orders coincide. -/
def hashSetInsert (s : List DocId) (x : DocId) : List DocId :=
  if s.contains x then s else s ++ [x]

def hashSetCollect (s : List DocId) (l : List DocId) : List DocId :=
  l.foldl hashSetInsert s

/-- Loop of fetch_doc_ids (segment.rs, lines 284-293): read each matched
term's posting list and insert every id into one set. -/
def fetchDocIdsAux (file : List Nat) : List (Term × Nat) → List DocId → Option (List DocId)
  | [], s => some s
  | (_, off) :: rest, s => do
    let ids ← Postings.postings file off
    fetchDocIdsAux file rest (hashSetCollect s ids)

/-- fetch_doc_ids (segment.rs): union of doc ids over the matched terms. -/
def fetch_doc_ids (file : List Nat) (info : List (Term × Nat)) : Option (List DocId) :=
  fetchDocIdsAux file info []

/-- Union loop of the `Query::Or` arm of evaluate_query (segment.rs, lines
221-248): while both cursors are alive push the smaller element — pushing the
right one on ties without consuming the left — then drain the leftovers. -/
def orMerge : List DocId → List DocId → List DocId
  | [], r => r
  | l, [] => l
  | a :: as, b :: bs =>
    if a < b then a :: orMerge as (b :: bs) else b :: orMerge (a :: as) bs
termination_by l r => l.length + r.length

/-- Intersection loop of the `Query::And` arm of evaluate_query (segment.rs,
lines 250-275): advance the smaller cursor, emit on equality. -/
def andMerge : List DocId → List DocId → List DocId
  | a :: as, b :: bs =>
    if a < b then andMerge as (b :: bs)
    else if b < a then andMerge (a :: as) bs
    else a :: andMerge as bs
  | _, _ => []
termination_by l r => l.length + r.length

/-- evaluate_query (segment.rs, lines 219-282) against a finalized postings
store given as its FST content and `postings.list` bytes. -/
def evaluate_query (fst : List (Term × Nat)) (file : List Nat) : QueryM → Option (List DocId)
  | .or l r => do
    let a ← evaluate_query fst file l
    let b ← evaluate_query fst file r
    some (orMerge a b)
  | .and l r => do
    let a ← evaluate_query fst file l
    let b ← evaluate_query fst file r
    some (andMerge a b)
  | q =>
    match q.matcher with
    | some m => fetch_doc_ids file (searchFst fst m)
    | none => none

/-- Sorted set union, the outcome the specification promises for `Or`. -/
def sortedSetUnion (a b : List DocId) : List DocId :=
  ((a ++ b).dedup).insertionSort (· ≤ ·)

/-- Two-term example segment: term `[97]` and term `[98]` each hold the single
doc id 1. -/
def demoPostings : List (Term × Nat) × List Nat :=
  Postings.new [([97], [1]), ([98], [1])]

/-- C1: on a segment where terms `[97]` and `[98]` both match doc 1, the two
leaf results are `[1]` and `[1]`, the sorted set union is `[1]`, but the `Or`
merge of evaluate_query pushes the right element on ties while keeping the
left one, so the per-segment search answers `[1, 1]` — neither deduplicated
nor the set union. -/
theorem evaluate_query_or_duplicates_shared_docid :
    evaluate_query demoPostings.1 demoPostings.2 (.or (.equal [97]) (.equal [98]))
      = some [1, 1] ∧
    evaluate_query demoPostings.1 demoPostings.2 (.equal [97]) = some [1] ∧
    evaluate_query demoPostings.1 demoPostings.2 (.equal [98]) = some [1] ∧
    sortedSetUnion [1] [1] = [1] := by
  have h97 : evaluate_query demoPostings.1 demoPostings.2 (.equal [97]) = some [1] := by
    decide
  have h98 : evaluate_query demoPostings.1 demoPostings.2 (.equal [98]) = some [1] := by
    decide
  refine ⟨?_, h97, h98, by decide⟩
  simp only [evaluate_query] at h97 h98 ⊢
  simp [h97, h98, orMerge]

/-- WritableSegment::num_docs (segment.rs). -/
def WritableSegmentM.numDocs (ws : WritableSegmentM) : Nat := ws.documents.length

/-- SegmentFinalizer::finalize (segment.rs, lines 200-211): forward the
segment together with the optional reply sender to the finalizer channel only
when the segment holds at least one document; otherwise both are dropped on
the spot ("do not bother finalizing empty segment"). -/
def SegmentFinalizer.finalize (seg : WritableSegmentM) (hasReply : Bool) :
    Option (WritableSegmentM × Bool) :=
  if seg.numDocs > 0 then some (seg, hasReply) else none

/-- Finalizer worker body (SegmentFinalizer::start, segment.rs, lines
181-192): after persisting and publishing a received segment it sends
`Ok(())` exactly when a reply sender came along with it. -/
def finalizerSendsReply (msg : WritableSegmentM × Bool) : Bool := msg.2

/-- Commit arm of indexing_task (core.rs, lines 251-254): swap the current
segment out for a fresh one and hand the old one — when there is one — to
`SegmentFinalizer::finalize`.  The result is the message that reaches the
finalizer channel, if any. -/
def indexingHandleCommit (current : Option WritableSegmentM) (hasReply : Bool) :
    Option (WritableSegmentM × Bool) :=
  match current with
  | some ws => SegmentFinalizer.finalize ws hasReply
  | none => none

inductive CommitOutcome where
  | ok : CommitOutcome
  | panicked : CommitOutcome
deriving DecidableEq

/-- IndexWriter::commit(wait = true) (core.rs, lines 210-223): create a
oneshot channel, send `Commit(Some(tx))`, then `rx.recv().unwrap()`.  The
receive returns an error — and the unwrap panics — exactly when every sender
was dropped without a reply being sent. -/
def IndexWriter.commitWait (current : Option WritableSegmentM) : CommitOutcome :=
  match indexingHandleCommit current true with
  | some msg => if finalizerSendsReply msg then .ok else .panicked
  | none => .panicked

/-- Number of documents in the indexing worker's current segment; the worker
starts with `None` and lazily creates the segment on the first insert. -/
def currentNumDocs : Option WritableSegmentM → Nat
  | none => 0
  | some ws => ws.numDocs

/-- C10: a waited commit issued while the current writable segment holds no
documents never reaches the finalizer — `finalize` drops the segment and the
reply sender — so no reply is sent and the `rx.recv().unwrap()` of
`IndexWriter::commit` panics instead of returning `Ok(())`. -/
theorem commit_wait_on_empty_segment_panics (current : Option WritableSegmentM)
    (h : currentNumDocs current = 0) :
    indexingHandleCommit current true = none ∧
    IndexWriter.commitWait current = .panicked := by
  cases current with
  | none => exact ⟨rfl, rfl⟩
  | some ws =>
    have hz : ws.numDocs = 0 := by simpa [currentNumDocs] using h
    constructor
    · simp [indexingHandleCommit, SegmentFinalizer.finalize, hz]
    · simp [IndexWriter.commitWait, indexingHandleCommit, SegmentFinalizer.finalize, hz]

/-- Witness for C10 at the concrete state right after a previous commit: the
current segment exists and is empty. -/
theorem commit_wait_on_empty_segment_panics_witness :
    indexingHandleCommit (some WritableSegmentM.empty) true = none ∧
    IndexWriter.commitWait (some WritableSegmentM.empty) = .panicked :=
  commit_wait_on_empty_segment_panics (some WritableSegmentM.empty) rfl

/-- Error kinds of `error.rs` reachable in the modelled fragment. -/
inductive FtsErrorM where
  | queryNotSupported : FtsErrorM
  | docNotFound : FtsErrorM
deriving DecidableEq

/-- Association-list reading of a hashbrown map with distinct keys
(`HashMap::get`). -/
def assocLookup (m : List (DocId × List Nat)) (i : DocId) : Option (List Nat) :=
  match m with
  | [] => none
  | (k, v) :: rest => if k = i then some v else assocLookup rest i

/-- View of a published segment as needed by `IndexReader::fetch_doc`: its id
(the ULID string, as bytes) and the id → content map of its document store. -/
structure SegmentDocsM where
  segId : List Nat
  docs : List (DocId × List Nat)
deriving DecidableEq

/-- Walk of `for segment_reader in self.segment_readers.iter().rev()`:
first hit wins, a full miss is `DocNotFound`. -/
def fetchDocRev : List SegmentDocsM → DocId → Except FtsErrorM (List Nat)
  | [], _ => .error .docNotFound
  | s :: rest, i =>
    match assocLookup s.docs i with
    | some b => .ok b
    | none => fetchDocRev rest i

/-- IndexReader::fetch_doc (core.rs, lines 322-330). -/
def IndexReader.fetch_doc (segs : List SegmentDocsM) (i : DocId) :
    Except FtsErrorM (List Nat) :=
  fetchDocRev segs.reverse i

/-- C3: over a published list strictly sorted by segment id (the invariant of
C7), `fetch_doc` returns `DocNotFound` exactly when no segment stores the id,
and returns the content stored by the segment with the largest id among those
containing the id. -/
theorem fetch_doc_newest_wins (segs : List SegmentDocsM) (i : DocId)
    (hsort : segs.Pairwise (fun a b => a.segId < b.segId)) :
    (IndexReader.fetch_doc segs i = .error .docNotFound ↔
      ∀ s ∈ segs, assocLookup s.docs i = none) ∧
    (∀ s ∈ segs, ∀ b, assocLookup s.docs i = some b →
      (∀ t ∈ segs, (assocLookup t.docs i).isSome → t.segId ≤ s.segId) →
      IndexReader.fetch_doc segs i = .ok b) := by
  induction segs using List.reverseRecOn with
  | nil =>
    refine ⟨by simp [IndexReader.fetch_doc, fetchDocRev], by simp⟩
  | append_singleton xs s ih =>
    rw [List.pairwise_append] at hsort
    obtain ⟨hxs, -, hcross⟩ := hsort
    have hstep : IndexReader.fetch_doc (xs ++ [s]) i =
        match assocLookup s.docs i with
        | some b => .ok b
        | none => IndexReader.fetch_doc xs i := by
      simp [IndexReader.fetch_doc, List.reverse_append, fetchDocRev]
    obtain ⟨ih1, ih2⟩ := ih hxs
    cases hlook : assocLookup s.docs i with
    | some c =>
      rw [hstep, hlook]
      constructor
      · constructor
        · intro hcontra; cases hcontra
        · intro hall
          have := hall s (by simp)
          rw [hlook] at this; cases this
      · intro s₀ hs₀ b hb hmax
        have hle : s.segId ≤ s₀.segId :=
          hmax s (by simp) (by simp [hlook])
        rcases List.mem_append.mp hs₀ with hin | hin
        · exact absurd (hcross s₀ hin s (by simp)) (not_lt_of_le hle)
        · have hs0 : s₀ = s := by simpa using hin
          subst hs0
          rw [hlook] at hb
          cases hb
          rfl
    | none =>
      rw [hstep, hlook]
      constructor
      · rw [ih1]
        constructor
        · intro hall t ht
          rcases List.mem_append.mp ht with hin | hin
          · exact hall t hin
          · have : t = s := by simpa using hin
            subst this; exact hlook
        · intro hall t ht; exact hall t (List.mem_append.mpr (Or.inl ht))
      · intro s₀ hs₀ b hb hmax
        rcases List.mem_append.mp hs₀ with hin | hin
        · exact ih2 s₀ hin b hb
            (fun t ht hsome => hmax t (List.mem_append.mpr (Or.inl ht)) hsome)
        · have : s₀ = s := by simpa using hin
          subst this
          rw [hlook] at hb
          cases hb

/-- Witness for C3: doc 5 lives in both published segments; the newer segment
(id `[2]`) wins. -/
theorem fetch_doc_newest_wins_witness :
    IndexReader.fetch_doc [⟨[1], [(5, [10])]⟩, ⟨[2], [(5, [20])]⟩] 5 = .ok [20] :=
  (fetch_doc_newest_wins [⟨[1], [(5, [10])]⟩, ⟨[2], [(5, [20])]⟩] 5
      (by simp [List.pairwise_cons]; decide)).2
    ⟨[2], [(5, [20])]⟩ (by simp) [20] (by decide)
    (by decide)

/-- Reachable states of the published segment list, tracked as the list of
segment ids.  `openIndex` is Index::open (core.rs, lines 111-132): collect
the directory entries and sort them by id (`sort_by_key`).  `publish` is the
finalizer push (segment.rs, lines 181-192); its freshness hypothesis is the
identifier property the data model guarantees — ULIDs are lexicographically
time-ordered, so a segment finalized later carries a larger id than
everything already published. -/
inductive SegListReachable : List (List Nat) → Prop
  | openIndex (ids : List (List Nat)) :
      SegListReachable (ids.insertionSort (· ≤ ·))
  | publish (s : List (List Nat)) (id : List Nat) (h : SegListReachable s)
      (hfresh : ∀ i ∈ s, i < id) : SegListReachable (s ++ [id])

/-- C7: in every reachable state — right after `Index::open` sorts the
scanned segments, and after every finalizer publication — the published
segment list is sorted by segment id ascending. -/
theorem published_segments_sorted (s : List (List Nat)) (h : SegListReachable s) :
    s.Sorted (· ≤ ·) := by
  induction h with
  | openIndex ids => exact List.sorted_insertionSort _ ids
  | publish s id h hfresh ih =>
    refine List.pairwise_append.mpr ⟨ih, by simp, ?_⟩
    intro a ha b hb
    have : b = id := by simpa using hb
    subst this
    exact le_of_lt (hfresh a ha)

/-- Witness for C7: open over two unsorted directory entries, then publish a
fresh segment. -/
theorem published_segments_sorted_witness :
    (([[2], [1]] : List (List Nat)).insertionSort (· ≤ ·) ++ [[3]]).Sorted (· ≤ ·) :=
  published_segments_sorted _
    (SegListReachable.publish _ [3] (SegListReachable.openIndex [[2], [1]])
      (by decide))

/-- Postings::range (postings.rs, lines 120-128): `.ge(from).lt(to)`, a
closed-open byte-range scan of the term dictionary.  A published segment is
viewed here as the list of terms of its FST. -/
def list_terms_in_range (segTerms : List Term) (lo hi : Term) : List Term :=
  segTerms.filter (fun t => decide (lo ≤ t) && decide (t < hi))

/-- Canonical content of a `BTreeSet<String>`: ascending and duplicate-free. -/
def btreeSetOf (l : List Term) : List Term := (l.insertionSort (· ≤ ·)).dedup

/-- BTreeSet union, the `terms_set.append(&mut terms)` step of
`IndexReader::terms_range`. -/
def btreeUnion (a b : List Term) : List Term := btreeSetOf (a ++ b)

/-- IndexReader::terms_range (core.rs, lines 280-298): defaults `"\u{0000}"`
and `"\u{fff0}"` (UTF-8 bytes `[0]` and `[239, 191, 176]`), then a fold over
the segment readers collecting every segment's in-range terms into one
ordered set.  The per-segment `BTreeSet` of the loop body is absorbed into
the union, which only ever sees its elements. -/
def IndexReader.terms_range (segs : List (List Term)) (lo hi : Option Term) :
    List Term :=
  (segs.map (fun s => list_terms_in_range s (lo.getD [0]) (hi.getD [239, 191, 176]))).foldl
    btreeUnion []

theorem btreeSetOf_sorted (l : List Term) : (btreeSetOf l).Sorted (· ≤ ·) :=
  List.Pairwise.sublist (List.dedup_sublist _) (List.sorted_insertionSort _ l)

theorem btreeSetOf_nodup (l : List Term) : (btreeSetOf l).Nodup :=
  List.nodup_dedup _

theorem mem_btreeSetOf {x : Term} {l : List Term} : x ∈ btreeSetOf l ↔ x ∈ l := by
  rw [btreeSetOf, List.mem_dedup, List.mem_insertionSort]

theorem btreeSetOf_ext {a b : List Term} (h : ∀ x, x ∈ a ↔ x ∈ b) :
    btreeSetOf a = btreeSetOf b :=
  List.eq_of_perm_of_sorted
    ((List.perm_ext_iff_of_nodup (btreeSetOf_nodup a) (btreeSetOf_nodup b)).mpr
      (fun x => by rw [mem_btreeSetOf, mem_btreeSetOf]; exact h x))
    (btreeSetOf_sorted a) (btreeSetOf_sorted b)

theorem btreeSetOf_idem_append (a b : List Term) :
    btreeSetOf (btreeSetOf a ++ b) = btreeSetOf (a ++ b) :=
  btreeSetOf_ext (fun x => by simp [mem_btreeSetOf])

theorem foldl_btreeUnion (L : List (List Term)) :
    ∀ a, L.foldl btreeUnion (btreeSetOf a) = btreeSetOf (a ++ L.flatten) := by
  induction L with
  | nil => intro a; simp [List.foldl]
  | cons x L ih =>
    intro a
    have hstep : btreeUnion (btreeSetOf a) x = btreeSetOf (a ++ x) := by
      rw [btreeUnion, btreeSetOf_idem_append]
    rw [List.foldl_cons, hstep, ih (a ++ x), List.flatten_cons, List.append_assoc]

theorem filter_flatten_eq (p : Term → Bool) (segs : List (List Term)) :
    (segs.map (fun s => s.filter p)).flatten = segs.flatten.filter p := by
  induction segs with
  | nil => rfl
  | cons s segs ih =>
    rw [List.map_cons, List.flatten_cons, ih, List.flatten_cons, List.filter_append]

/-- Deduplicated sorted union of the terms, across segments, that fall in the
byte range `[lo, hi)` — the amended reading of the specification sentence for
`terms_range(None, None)`. -/
def specTermsRangeUnion (segs : List (List Term)) (lo hi : Term) : List Term :=
  btreeSetOf (segs.flatten.filter (fun t => decide (lo ≤ t) && decide (t < hi)))

/-- C5 (amended): `terms_range(None, None)` returns the deduplicated sorted
union of all published segments' terms that lie in the default closed-open
range `["\u{0000}", "\u{fff0}")`. -/
theorem terms_range_default_is_bounded_union (segs : List (List Term)) :
    IndexReader.terms_range segs none none =
      specTermsRangeUnion segs [0] [239, 191, 176] := by
  rw [specTermsRangeUnion, ← filter_flatten_eq]
  exact foldl_btreeUnion
    (segs.map (fun s => list_terms_in_range s [0] [239, 191, 176])) []

/-- C5 (counterexample to the claim as stated): a segment holding the single
term `"\u{ffff}"` (bytes `[239, 191, 191]`, at or above the default upper
bound) makes `terms_range(None, None)` return the empty list, not the sorted
union of all terms. -/
theorem terms_range_default_misses_high_terms :
    IndexReader.terms_range [[[239, 191, 191]]] none none ≠
      btreeSetOf ([[[239, 191, 191]]] : List (List Term)).flatten ∧
    IndexReader.terms_range [[[239, 191, 191]]] none none = [] ∧
    btreeSetOf ([[[239, 191, 191]]] : List (List Term)).flatten
      = [[239, 191, 191]] := by
  refine ⟨by decide, by decide, by decide⟩

/-- Label (storage/src/core.rs): a name/value pair of UTF-8 strings, modelled
as byte lists. -/
structure LabelM where
  name : List Nat
  value : List Nat
deriving DecidableEq

/-- Memory footprint `size_of::<Sample>()` used by `TimeSeries::extend`
(an `i64` timestamp plus an `f64` value). -/
def SAMPLE_SIZE : Nat := 16

/-- TimeSeries (storage/src/core.rs) as the ingestion loop consumes it.
Sample values are `f64` and never inspected by the buffer logic — they are
only counted and concatenated — so the sample type stays abstract. -/
structure TimeSeriesM (σ : Type) where
  id : Nat
  labels : List LabelM
  samples : List σ
  sizeBytes : Nat

/-- TimeSeries::extend (storage/src/core.rs, lines 68-71): grow the byte
count by one sample footprint per sample, then append. -/
def TimeSeriesM.extend {σ : Type} (ts : TimeSeriesM σ) (samples : List σ) :
    TimeSeriesM σ :=
  { ts with
    sizeBytes := ts.sizeBytes + SAMPLE_SIZE * samples.length
    samples := ts.samples ++ samples }

/-- HashMap::get of the memory buffer. -/
def bufLookup {σ : Type} (m : List (Nat × TimeSeriesM σ)) (i : Nat) :
    Option (TimeSeriesM σ) :=
  match m with
  | [] => none
  | (k, v) :: rest => if k = i then some v else bufLookup rest i

/-- In-place `entry.extend(samples)` through `HashMap::get_mut`. -/
def bufUpdateExtend {σ : Type} (m : List (Nat × TimeSeriesM σ)) (i : Nat)
    (samples : List σ) : List (Nat × TimeSeriesM σ) :=
  match m with
  | [] => []
  | (k, v) :: rest =>
    if k = i then (k, v.extend samples) :: rest
    else (k, v) :: bufUpdateExtend rest i samples

/-- Terms indexed for a new series: one `name:value` string per label
(`format!("{}:{}", l.name, l.value)`, byte 58 is `:`). -/
def seriesTerms (labels : List LabelM) : List Term :=
  labels.map (fun l => l.name ++ [58] ++ l.value)

/-- State of the ingestion loop in `ClickHouseStorage::new`: the series
buffer, the two counters, and the sequence of documents handed to
`index_writer.insert_doc` (a FIFO channel). -/
structure IngestState (σ : Type) where
  buffer : List (Nat × TimeSeriesM σ)
  memoryUsage : Nat
  sampleCount : Nat
  insertedDocs : List DocumentM

/-- Per-series body of handle_received_series (storage/src/clickhouse.rs,
lines 296-324).  `jsonFn` stands for `serde_json::to_string` applied to the
label vector. -/
def handleOneSeries {σ : Type} (jsonFn : List LabelM → List Nat)
    (st : IngestState σ) (s : TimeSeriesM σ) : IngestState σ :=
  let st := { st with
    memoryUsage := st.memoryUsage + s.sizeBytes
    sampleCount := st.sampleCount + s.samples.length }
  match bufLookup st.buffer s.id with
  | some _ => { st with buffer := bufUpdateExtend st.buffer s.id s.samples }
  | none =>
    { st with
      insertedDocs := st.insertedDocs ++ [⟨s.id, jsonFn s.labels, seriesTerms s.labels⟩]
      buffer := st.buffer ++ [(s.id, s)] }

/-- handle_received_series (storage/src/clickhouse.rs, lines 296-324). -/
def handle_received_series {σ : Type} (jsonFn : List LabelM → List Nat)
    (st : IngestState σ) (batch : List (TimeSeriesM σ)) : IngestState σ :=
  batch.foldl (handleOneSeries jsonFn) st

/-- Specification-side selection: the batch elements whose series id is new —
neither buffered already nor seen earlier in the batch. -/
def newSeriesFirstOccurrences {σ : Type} (bufferIds : List Nat) :
    List (TimeSeriesM σ) → List (TimeSeriesM σ)
  | [] => []
  | s :: rest =>
    if s.id ∈ bufferIds then newSeriesFirstOccurrences bufferIds rest
    else s :: newSeriesFirstOccurrences (bufferIds ++ [s.id]) rest

theorem bufLookup_isSome_iff_mem {σ : Type} (m : List (Nat × TimeSeriesM σ))
    (i : Nat) : (bufLookup m i).isSome ↔ i ∈ m.map Prod.fst := by
  induction m with
  | nil => simp [bufLookup]
  | cons p rest ih =>
    obtain ⟨k, v⟩ := p
    by_cases hk : k = i
    · subst hk; simp [bufLookup]
    · simp [bufLookup, hk, ih, Ne.symm hk]

theorem bufUpdateExtend_keys {σ : Type} (m : List (Nat × TimeSeriesM σ))
    (i : Nat) (samples : List σ) :
    (bufUpdateExtend m i samples).map Prod.fst = m.map Prod.fst := by
  induction m with
  | nil => rfl
  | cons p rest ih =>
    obtain ⟨k, v⟩ := p
    by_cases hk : k = i <;> simp [bufUpdateExtend, hk, ih]

theorem bufLookup_updateExtend {σ : Type} (m : List (Nat × TimeSeriesM σ))
    (i j : Nat) (samples : List σ) :
    bufLookup (bufUpdateExtend m i samples) j =
      if j = i then (bufLookup m i).map (fun ts => ts.extend samples)
      else bufLookup m j := by
  induction m with
  | nil => by_cases hj : j = i <;> simp [bufUpdateExtend, bufLookup, hj]
  | cons p rest ih =>
    obtain ⟨k, v⟩ := p
    by_cases hk : k = i
    · subst hk
      by_cases hj : j = k
      · subst hj; simp [bufUpdateExtend, bufLookup]
      · simp [bufUpdateExtend, bufLookup, hj, Ne.symm hj]
    · by_cases hj : k = j
      · have hij : ¬ j = i := fun h => hk (hj.trans h)
        simp [bufUpdateExtend, bufLookup, hk, hj, hij]
      · simp [bufUpdateExtend, bufLookup, hk, hj, ih]

theorem bufLookup_append_ne {σ : Type} (m : List (Nat × TimeSeriesM σ))
    (k : Nat) (v : TimeSeriesM σ) (i : Nat) (h : k ≠ i) :
    bufLookup (m ++ [(k, v)]) i = bufLookup m i := by
  induction m with
  | nil => simp [bufLookup, h]
  | cons p rest ih =>
    obtain ⟨k0, v0⟩ := p
    simp only [List.cons_append, bufLookup]
    by_cases hk : k0 = i
    · rw [if_pos hk, if_pos hk]
    · rw [if_neg hk, if_neg hk]
      exact ih

theorem bufLookup_append_self {σ : Type} (m : List (Nat × TimeSeriesM σ))
    (k : Nat) (v : TimeSeriesM σ) (h : bufLookup m k = none) :
    bufLookup (m ++ [(k, v)]) k = some v := by
  induction m with
  | nil => simp [bufLookup]
  | cons p rest ih =>
    obtain ⟨k0, v0⟩ := p
    simp only [bufLookup] at h
    simp only [List.cons_append, bufLookup]
    by_cases hk : k0 = k
    · rw [if_pos hk] at h; cases h
    · rw [if_neg hk] at h
      rw [if_neg hk]
      exact ih h

theorem extend_nil {σ : Type} (ts : TimeSeriesM σ) : ts.extend [] = ts := by
  simp [TimeSeriesM.extend]

theorem extend_extend {σ : Type} (ts : TimeSeriesM σ) (a b : List σ) :
    (ts.extend a).extend b = ts.extend (a ++ b) := by
  simp [TimeSeriesM.extend, Nat.mul_add, List.append_assoc]
  omega

theorem handleOneSeries_buffered {σ : Type} (jsonFn : List LabelM → List Nat)
    (st : IngestState σ) (s : TimeSeriesM σ) (ts0 : TimeSeriesM σ)
    (h : bufLookup st.buffer s.id = some ts0) :
    (handleOneSeries jsonFn st s).buffer = bufUpdateExtend st.buffer s.id s.samples ∧
    (handleOneSeries jsonFn st s).insertedDocs = st.insertedDocs := by
  constructor <;> simp [handleOneSeries, h]

theorem handleOneSeries_new {σ : Type} (jsonFn : List LabelM → List Nat)
    (st : IngestState σ) (s : TimeSeriesM σ)
    (h : bufLookup st.buffer s.id = none) :
    (handleOneSeries jsonFn st s).buffer = st.buffer ++ [(s.id, s)] ∧
    (handleOneSeries jsonFn st s).insertedDocs =
      st.insertedDocs ++ [⟨s.id, jsonFn s.labels, seriesTerms s.labels⟩] := by
  constructor <;> simp [handleOneSeries, h]

/-- Specification-side final buffer entry for id `i` after processing
`batch` against the initial buffer `buf`: an already-buffered entry gets the
samples of every matching batch element appended; a fresh id is buffered
from its first occurrence in the batch, with the samples of all later
repeats appended to it; every other id stays absent. -/
def specFinalEntry {σ : Type} (buf : List (Nat × TimeSeriesM σ))
    (batch : List (TimeSeriesM σ)) (i : Nat) : Option (TimeSeriesM σ) :=
  match bufLookup buf i with
  | some ts =>
    some (ts.extend
      ((batch.filter (fun s => s.id == i)).map (fun s => s.samples)).flatten)
  | none =>
    match batch.dropWhile (fun s => s.id != i) with
    | [] => none
    | s :: later =>
      some (s.extend
        ((later.filter (fun t => t.id == i)).map (fun t => t.samples)).flatten)

theorem specFinalEntry_extend_step {σ : Type} (buf : List (Nat × TimeSeriesM σ))
    (s : TimeSeriesM σ) (rest : List (TimeSeriesM σ)) (i : Nat)
    (ts0 : TimeSeriesM σ) (h : bufLookup buf s.id = some ts0) :
    specFinalEntry (bufUpdateExtend buf s.id s.samples) rest i =
      specFinalEntry buf (s :: rest) i := by
  by_cases hi : i = s.id
  · subst hi
    have hupd : bufLookup (bufUpdateExtend buf s.id s.samples) s.id
        = some (ts0.extend s.samples) := by
      rw [bufLookup_updateExtend, if_pos rfl, h]
      rfl
    simp only [specFinalEntry, hupd, h, List.filter_cons]
    simp [extend_extend]
  · have hupd : bufLookup (bufUpdateExtend buf s.id s.samples) i
        = bufLookup buf i := by
      rw [bufLookup_updateExtend, if_neg hi]
    have hbeq : (s.id == i) = false := by
      simp only [beq_eq_false_iff_ne]
      exact Ne.symm hi
    have hbne : (s.id != i) = true := by
      simp [bne, hbeq]
    cases hb : bufLookup buf i with
    | some ts => simp [specFinalEntry, hupd, hb, List.filter_cons, hbeq]
    | none => simp [specFinalEntry, hupd, hb, List.dropWhile_cons, hbne]

theorem specFinalEntry_insert_step {σ : Type} (buf : List (Nat × TimeSeriesM σ))
    (s : TimeSeriesM σ) (rest : List (TimeSeriesM σ)) (i : Nat)
    (h : bufLookup buf s.id = none) :
    specFinalEntry (buf ++ [(s.id, s)]) rest i =
      specFinalEntry buf (s :: rest) i := by
  by_cases hi : i = s.id
  · subst hi
    have happ : bufLookup (buf ++ [(s.id, s)]) s.id = some s :=
      bufLookup_append_self buf s.id s h
    have hbne : (s.id != s.id) = false := by simp
    simp [specFinalEntry, happ, h, List.dropWhile_cons, hbne]
  · have happ : bufLookup (buf ++ [(s.id, s)]) i = bufLookup buf i :=
      bufLookup_append_ne buf s.id s i (Ne.symm hi)
    have hbeq : (s.id == i) = false := by
      simp only [beq_eq_false_iff_ne]
      exact Ne.symm hi
    have hbne : (s.id != i) = true := by
      simp [bne, hbeq]
    cases hb : bufLookup buf i with
    | some ts => simp [specFinalEntry, happ, hb, List.filter_cons, hbeq]
    | none => simp [specFinalEntry, happ, hb, List.dropWhile_cons, hbne]

/-- C9: over any received batch, the documents handed to the index writer are
exactly one per series whose id is new — `DocId` the series id, content the
JSON of the labels, one `name:value` term per label, in batch order — and
the final buffer holds, for every id: the pre-buffered entry with the
samples of every matching batch element appended; or, for an id first seen
inside the batch, its first occurrence buffered with the samples of all
later repeats appended; and nothing else.  In particular a buffered-id
series inserts no document and only extends the buffered entry, and a
fresh-id series is buffered and inserts exactly one document. -/
theorem handle_received_series_spec {σ : Type} (jsonFn : List LabelM → List Nat)
    (st : IngestState σ) (batch : List (TimeSeriesM σ)) :
    (handle_received_series jsonFn st batch).insertedDocs =
      st.insertedDocs ++
        (newSeriesFirstOccurrences (st.buffer.map Prod.fst) batch).map
          (fun s => ⟨s.id, jsonFn s.labels, seriesTerms s.labels⟩) ∧
    (∀ i, bufLookup (handle_received_series jsonFn st batch).buffer i =
      specFinalEntry st.buffer batch i) := by
  induction batch generalizing st with
  | nil =>
    refine ⟨by simp [handle_received_series, newSeriesFirstOccurrences], ?_⟩
    intro i
    cases hb : bufLookup st.buffer i with
    | some ts =>
      simp only [handle_received_series, List.foldl_nil, specFinalEntry, hb]
      simp [extend_nil]
    | none =>
      simp only [handle_received_series, List.foldl_nil, specFinalEntry, hb]
      rfl
  | cons s rest ih =>
    have hstep : handle_received_series jsonFn st (s :: rest) =
        handle_received_series jsonFn (handleOneSeries jsonFn st s) rest := rfl
    obtain ⟨ih1, ih2⟩ := ih (handleOneSeries jsonFn st s)
    cases hlook : bufLookup st.buffer s.id with
    | some ts0 =>
      obtain ⟨hbuf, hdocs⟩ := handleOneSeries_buffered jsonFn st s ts0 hlook
      have hmem : s.id ∈ st.buffer.map Prod.fst :=
        (bufLookup_isSome_iff_mem _ _).mp (by simp [hlook])
      constructor
      · rw [hstep, ih1, hdocs, hbuf, bufUpdateExtend_keys]
        simp [newSeriesFirstOccurrences, hmem]
      · intro i
        rw [hstep, ih2 i, hbuf,
          specFinalEntry_extend_step st.buffer s rest i ts0 hlook]
    | none =>
      obtain ⟨hbuf, hdocs⟩ := handleOneSeries_new jsonFn st s hlook
      have hmem : s.id ∉ st.buffer.map Prod.fst := by
        rw [← bufLookup_isSome_iff_mem, hlook]; simp
      constructor
      · rw [hstep, ih1, hdocs, hbuf]
        simp [newSeriesFirstOccurrences, hmem, List.append_assoc]
      · intro i
        rw [hstep, ih2 i, hbuf,
          specFinalEntry_insert_step st.buffer s rest i hlook]

/-- XXH64 prime 1. -/
def xxP1 : Nat := 11400714785074694791
/-- XXH64 prime 2. -/
def xxP2 : Nat := 14029467366897019727
/-- XXH64 prime 3. -/
def xxP3 : Nat := 1609587929392839161
/-- XXH64 prime 4. -/
def xxP4 : Nat := 9650029242287828579
/-- XXH64 prime 5. -/
def xxP5 : Nat := 2870177450012600261

/-- Left rotation of a 64-bit value (argument below `2 ^ 64`). -/
def rotl64 (x r : Nat) : Nat := (x * 2 ^ r + x / 2 ^ (64 - r)) % 2 ^ 64

/-- XXH64 round: `rotl(acc + lane * P2, 31) * P1`, all wrapping. -/
def xxRound (acc lane : Nat) : Nat :=
  rotl64 ((acc + lane * xxP2) % 2 ^ 64) 31 * xxP1 % 2 ^ 64

/-- XXH64 merge round for the converged accumulator. -/
def xxMergeRound (acc v : Nat) : Nat :=
  ((acc ^^^ xxRound 0 v) * xxP1 + xxP4) % 2 ^ 64

/-- Accumulator state of the 32-byte stripe loop plus the unconsumed rest. -/
structure XxAcc where
  v1 : Nat
  v2 : Nat
  v3 : Nat
  v4 : Nat
  rest : List Nat

/-- XXH64 stripe loop: consume 32-byte stripes while at least 32 bytes
remain. -/
def xxStripeLoop (b : List Nat) (v1 v2 v3 v4 : Nat) : XxAcc :=
  if _h : 32 ≤ b.length then
    xxStripeLoop (b.drop 32)
      (xxRound v1 (leVal (b.take 8)))
      (xxRound v2 (leVal ((b.drop 8).take 8)))
      (xxRound v3 (leVal ((b.drop 16).take 8)))
      (xxRound v4 (leVal ((b.drop 24).take 8)))
  else ⟨v1, v2, v3, v4, b⟩
termination_by b.length
decreasing_by
  simp only [List.length_drop]
  omega

/-- XXH64 tail: 8-byte lanes while at least 8 bytes remain. -/
def xxTail8 (h : Nat) : List Nat → Nat × List Nat
  | b1 :: b2 :: b3 :: b4 :: b5 :: b6 :: b7 :: b8 :: rest =>
    xxTail8
      ((rotl64 (h ^^^ xxRound 0 (leVal [b1, b2, b3, b4, b5, b6, b7, b8])) 27
          * xxP1 + xxP4) % 2 ^ 64)
      rest
  | rest => (h, rest)

/-- XXH64 tail: one 4-byte lane if at least 4 bytes remain. -/
def xxTail4 (h : Nat) : List Nat → Nat × List Nat
  | b1 :: b2 :: b3 :: b4 :: rest =>
    ((rotl64 (h ^^^ leVal [b1, b2, b3, b4] * xxP1 % 2 ^ 64) 23
        * xxP2 + xxP3) % 2 ^ 64, rest)
  | rest => (h, rest)

/-- XXH64 tail: remaining single bytes. -/
def xxTailBytes (h : Nat) : List Nat → Nat
  | [] => h
  | b :: rest =>
    xxTailBytes ((rotl64 (h ^^^ b * xxP5 % 2 ^ 64) 11 * xxP1) % 2 ^ 64) rest

/-- XXH64 final avalanche. -/
def xxAvalanche (h0 : Nat) : Nat :=
  let h1 := h0 ^^^ h0 / 2 ^ 33
  let h2 := h1 * xxP2 % 2 ^ 64
  let h3 := h2 ^^^ h2 / 2 ^ 29
  let h4 := h3 * xxP3 % 2 ^ 64
  h4 ^^^ h4 / 2 ^ 32

/-- XXH64 of a byte string; `fasthash::xx::hash64` is XXH64 with seed 0. -/
def xxh64 (seed : Nat) (b : List Nat) : Nat :=
  let p :=
    if 32 ≤ b.length then
      let s := xxStripeLoop b ((seed + xxP1 + xxP2) % 2 ^ 64)
        ((seed + xxP2) % 2 ^ 64) (seed % 2 ^ 64) ((seed + (2 ^ 64 - xxP1)) % 2 ^ 64)
      let h0 := (rotl64 s.v1 1 + rotl64 s.v2 7 + rotl64 s.v3 12 + rotl64 s.v4 18) % 2 ^ 64
      (xxMergeRound (xxMergeRound (xxMergeRound (xxMergeRound h0 s.v1) s.v2) s.v3) s.v4,
        s.rest)
    else ((seed + xxP5) % 2 ^ 64, b)
  let h := (p.1 + b.length) % 2 ^ 64
  let t8 := xxTail8 h p.2
  let t4 := xxTail4 t8.1 t8.2
  xxAvalanche (xxTailBytes t4.1 t4.2)

/-- UTF-8 bytes of `"__name__"` (`SERIES_NAME_LABEL` in storage/src/core.rs). -/
def SERIES_NAME_LABEL : List Nat := [95, 95, 110, 97, 109, 101, 95, 95]

/-- Rendering `format!("{}_{}", l.name, l.value)` (byte 95 is the underscore). -/
def renderLabel (l : LabelM) : List Nat := l.name ++ [95] ++ l.value

/-- Vec::join with separator `"-"` (byte 45). -/
def joinDash : List (List Nat) → List Nat
  | [] => []
  | [x] => x
  | x :: y :: rest => x ++ [45] ++ joinDash (y :: rest)

/-- TimeSeriesInfo (storage/src/core.rs). -/
structure TimeSeriesInfoM where
  id : Nat
  name : List Nat
  longName : List Nat
  labels : List LabelM
deriving DecidableEq

/-- TimeSeriesInfo::new (storage/src/core.rs, lines 116-142): find the
`__name__` label (its absence panics in Rust, modelled as `none`), render
every label as `name_value`, sort the rendered strings (`label_set.sort()`,
byte-wise lexicographic), join with `-`, hash with xxhash64. -/
def TimeSeriesInfo.new (labels : List LabelM) : Option TimeSeriesInfoM :=
  match labels.find? (fun l => l.name == SERIES_NAME_LABEL) with
  | none => none
  | some nameLabel =>
    let labelSet := (labels.map renderLabel).insertionSort (· ≤ ·)
    let longName := joinDash labelSet
    some ⟨xxh64 0 longName, nameLabel.value, longName, labels⟩

/-- Series id as the claim states it: render each label as `name_value`,
sort the labels ascending by the `(name, value)` pair, join with `-`, hash. -/
def specSeriesIdByPair (labels : List LabelM) : Nat :=
  xxh64 0 (joinDash ((labels.insertionSort
    (fun a b => a.name < b.name ∨ (a.name = b.name ∧ a.value ≤ b.value))).map
      renderLabel))

/-- Series id as the code computes it, stated from the amended claim: render
each label as `name_value`, sort the rendered strings ascending byte-wise,
join with `-`, hash. -/
def specSeriesIdRendered (labels : List LabelM) : Nat :=
  xxh64 0 (joinDash ((labels.map renderLabel).insertionSort (· ≤ ·)))

/-- C8 (counterexample to the claim as stated): with labels
`{__name__: m, a: z, a_: a}` the pair order puts `(a, z)` before `(a_, a)`
but the rendered-string order puts `a__a` before `a_z`, so the canonical
strings — and the xxhash64 series ids — differ. -/
theorem series_id_pair_sort_counterexample :
    (TimeSeriesInfo.new
        [⟨SERIES_NAME_LABEL, [109]⟩, ⟨[97], [122]⟩, ⟨[97, 95], [97]⟩]).map
        (fun info => info.id) ≠
      some (specSeriesIdByPair
        [⟨SERIES_NAME_LABEL, [109]⟩, ⟨[97], [122]⟩, ⟨[97, 95], [97]⟩]) := by
  decide

/-- C8 (amended): for every label list containing a `__name__` label, the
computed series id is xxhash64 of the canonical string obtained by rendering
each label as `name_value`, sorting the rendered strings ascending byte-wise,
and joining them with `-`. -/
theorem series_id_is_hash_of_sorted_rendered_labels (labels : List LabelM)
    (h : ∃ l ∈ labels, l.name = SERIES_NAME_LABEL) :
    (TimeSeriesInfo.new labels).map (fun info => info.id) =
      some (specSeriesIdRendered labels) := by
  obtain ⟨l, hl, hname⟩ := h
  cases hfind : labels.find? (fun l => l.name == SERIES_NAME_LABEL) with
  | none =>
    rw [List.find?_eq_none] at hfind
    have := hfind l hl
    simp [hname] at this
  | some nameLabel =>
    simp [TimeSeriesInfo.new, hfind, specSeriesIdRendered]

/-- Witness for the amended C8 on a concrete label set. -/
theorem series_id_is_hash_of_sorted_rendered_labels_witness :
    (TimeSeriesInfo.new [⟨SERIES_NAME_LABEL, [109]⟩, ⟨[97], [122]⟩]).map
        (fun info => info.id) =
      some (specSeriesIdRendered [⟨SERIES_NAME_LABEL, [109]⟩, ⟨[97], [122]⟩]) :=
  series_id_is_hash_of_sorted_rendered_labels
    [⟨SERIES_NAME_LABEL, [109]⟩, ⟨[97], [122]⟩]
    ⟨⟨SERIES_NAME_LABEL, [109]⟩, by simp, rfl⟩

theorem bincodeVecU64_length (l : List Nat) :
    (bincodeVecU64 l).length = 8 + 8 * l.length := by
  induction l with
  | nil => rfl
  | cons d rest ih =>
    simp only [bincodeVecU64, List.length_append, u64le_length,
      List.length_flatten] at ih ⊢
    simp only [List.map_cons, List.map_map, List.sum_cons] at ih ⊢
    simp [u64le_length] at ih ⊢
    omega

theorem readU64List_exact (l : List Nat) : ∀ (pre suf : List Nat),
    (∀ d ∈ l, d < 2 ^ 64) →
    readU64List (pre ++ ((l.map u64le).flatten ++ suf)) pre.length l.length
      = some l := by
  induction l with
  | nil => intro pre suf _; simp [readU64List]
  | cons d rest ih =>
    intro pre suf h
    have hfile : pre ++ (((d :: rest).map u64le).flatten ++ suf)
        = pre ++ (u64le d ++ ((rest.map u64le).flatten ++ suf)) := by
      simp
    have h1 := readU64_append pre d ((rest.map u64le).flatten ++ suf)
      (h d (by simp))
    have h2 := ih (pre ++ u64le d) suf (fun x hx => h x (by simp [hx]))
    have hlen : (pre ++ u64le d).length = pre.length + 8 := by
      simp [u64le_length]
    rw [hlen, List.append_assoc] at h2
    simp only [List.length_cons, readU64List, U64_NUM_BYTE, hfile]
    rw [h1]
    simp only [Option.bind_eq_bind, Option.some_bind]
    rw [h2]
    rfl

theorem bincodeRead_roundtrip (l : List Nat) (h : ∀ d ∈ l, d < 2 ^ 64)
    (hn : l.length < 2 ^ 64) :
    bincodeReadVecU64 (bincodeVecU64 l) = some l := by
  have h0 := readU64_append [] l.length ((l.map u64le).flatten) hn
  simp only [List.nil_append, List.length_nil] at h0
  have h1 := readU64List_exact l (u64le l.length) [] h
  simp only [List.append_nil, u64le_length] at h1
  simp only [bincodeReadVecU64, bincodeVecU64, U64_NUM_BYTE]
  rw [h0]
  simp only [Option.bind_eq_bind, Option.some_bind]
  exact h1

theorem postings_read_at (pre payload suf : List Nat)
    (hp : payload.length < 2 ^ 64) :
    Postings.postings (pre ++ (u64le payload.length ++ (payload ++ suf)))
        pre.length = bincodeReadVecU64 payload := by
  have hread := readU64_append pre payload.length (payload ++ suf) hp
  have hgroup : pre ++ (u64le payload.length ++ (payload ++ suf))
      = (pre ++ u64le payload.length) ++ (payload ++ suf) := by
    simp
  have hlen : (pre ++ u64le payload.length).length = pre.length + 8 := by
    simp [u64le_length]
  have hdrop : (pre ++ (u64le payload.length ++ (payload ++ suf))).drop
      (pre.length + U64_NUM_BYTE) = payload ++ suf := by
    rw [hgroup, U64_NUM_BYTE, ← hlen, List.drop_left]
  have htake : (payload ++ suf).take payload.length = payload :=
    List.take_left payload suf
  simp only [Postings.postings, U64_NUM_BYTE] at *
  rw [hread]
  simp only [Option.bind_eq_bind, Option.some_bind, hdrop, htake]
  simp

/-- Offset recurrence asserted by the claim: the first record starts at
`off`, and every following term's offset is the previous offset plus 8 plus
the previous payload size. -/
def offsetsFrom (off : Nat) : List (Term × List DocId) → List Nat
  | [] => []
  | e :: rest => off :: offsetsFrom (off + U64_NUM_BYTE + (bincodeVecU64 e.2).length) rest

/-- Entry list `Postings::new` actually streams: per-term lists sorted, then
keys sorted. -/
def postingsEntries (termDict : List (Term × List DocId)) : List (Term × List DocId) :=
  sortByTermKey (termDict.map fun p => (p.1, sortDocIds p.2))

theorem postingsRecords_shape (entries : List (Term × List DocId)) : ∀ off,
    (postingsRecords entries off).1.map Prod.fst = entries.map Prod.fst ∧
    (postingsRecords entries off).1.map Prod.snd = offsetsFrom off entries := by
  induction entries with
  | nil => intro off; exact ⟨rfl, rfl⟩
  | cons e rest ih =>
    intro off
    obtain ⟨e1, e2⟩ := e
    obtain ⟨iha, ihb⟩ := ih (off + U64_NUM_BYTE + (bincodeVecU64 e2).length)
    constructor
    · simp only [postingsRecords, List.map_cons, offsetsFrom]
      rw [iha]
    · simp only [postingsRecords, List.map_cons, offsetsFrom]
      rw [ihb]

theorem postingsRecords_readback (entries : List (Term × List DocId)) :
    ∀ (pre : List Nat),
    (∀ p ∈ entries, ∀ d ∈ p.2, d < 2 ^ 64) →
    (∀ p ∈ entries, 8 + 8 * p.2.length < 2 ^ 64) →
    ∀ pe ∈ List.zip (postingsRecords entries pre.length).1 entries,
      Postings.postings (pre ++ (postingsRecords entries pre.length).2) pe.1.2
        = some pe.2.2 := by
  induction entries with
  | nil => intro pre _ _ pe hpe; simp [postingsRecords] at hpe
  | cons e rest ih =>
    intro pre hvals hlens pe hpe
    obtain ⟨e1, e2⟩ := e
    have hplen : (bincodeVecU64 e2).length = 8 + 8 * e2.length :=
      bincodeVecU64_length e2
    have hpsize : (bincodeVecU64 e2).length < 2 ^ 64 := by
      rw [hplen]; exact hlens (e1, e2) (by simp)
    have hrec : (pre ++ (u64le (bincodeVecU64 e2).length ++ bincodeVecU64 e2)).length
        = pre.length + U64_NUM_BYTE + (bincodeVecU64 e2).length := by
      simp [u64le_length, U64_NUM_BYTE]
      omega
    simp only [postingsRecords, List.zip_cons_cons, List.mem_cons] at hpe
    rcases hpe with hhead | htail
    · subst hhead
      have hgoal : Postings.postings (pre ++ (u64le (bincodeVecU64 e2).length ++
            (bincodeVecU64 e2 ++
              (postingsRecords rest
                (pre.length + U64_NUM_BYTE + (bincodeVecU64 e2).length)).2)))
          pre.length = some e2 := by
        rw [postings_read_at pre (bincodeVecU64 e2) _ hpsize]
        exact bincodeRead_roundtrip e2 (hvals (e1, e2) (by simp))
          (by have := hlens (e1, e2) (by simp); omega)
      simpa [List.append_assoc] using hgoal
    · have ihp := ih (pre ++ (u64le (bincodeVecU64 e2).length ++ bincodeVecU64 e2))
        (fun p hp => hvals p (by simp [hp]))
        (fun p hp => hlens p (by simp [hp]))
        pe
      rw [hrec] at ihp
      have hres := ihp htail
      simpa [List.append_assoc] using hres

/-- C6: for every terms map, `Postings::new` lays the records down back to
back — the FST keys are the sorted terms, the stored offsets follow the
recurrence "first record at 0, every next offset = previous offset + 8 +
previous payload size" — and `postings(offset)` at each term's FST value
returns exactly the DocId list serialized for that term. -/
theorem postings_new_layout_and_readback (termDict : List (Term × List DocId))
    (hvals : ∀ p ∈ termDict, ∀ d ∈ p.2, d < 2 ^ 64)
    (hlens : ∀ p ∈ termDict, 8 + 8 * p.2.length < 2 ^ 64) :
    (Postings.new termDict).1.map Prod.fst = (postingsEntries termDict).map Prod.fst ∧
    (Postings.new termDict).1.map Prod.snd = offsetsFrom 0 (postingsEntries termDict) ∧
    (∀ pe ∈ List.zip (Postings.new termDict).1 (postingsEntries termDict),
      Postings.postings (Postings.new termDict).2 pe.1.2 = some pe.2.2) := by
  have hvalsE : ∀ p ∈ postingsEntries termDict, ∀ d ∈ p.2, d < 2 ^ 64 := by
    intro p hp d hd
    rw [postingsEntries, sortByTermKey, List.mem_insertionSort] at hp
    obtain ⟨q, hq, rfl⟩ := List.mem_map.mp hp
    rw [sortDocIds, List.mem_insertionSort] at hd
    exact hvals q hq d hd
  have hlensE : ∀ p ∈ postingsEntries termDict, 8 + 8 * p.2.length < 2 ^ 64 := by
    intro p hp
    rw [postingsEntries, sortByTermKey, List.mem_insertionSort] at hp
    obtain ⟨q, hq, rfl⟩ := List.mem_map.mp hp
    rw [sortDocIds, List.length_insertionSort]
    exact hlens q hq
  obtain ⟨ha, hb⟩ := postingsRecords_shape (postingsEntries termDict) 0
  refine ⟨ha, hb, ?_⟩
  intro pe hpe
  have := postingsRecords_readback (postingsEntries termDict) [] hvalsE hlensE pe
  simp only [List.length_nil, List.nil_append] at this
  exact this hpe

/-- Witness for C6 on a concrete two-term map with the terms and doc lists
initially out of order. -/
theorem postings_new_layout_and_readback_witness :
    (Postings.new [([98], [3, 1]), ([97], [2])]).1.map Prod.fst
        = (postingsEntries [([98], [3, 1]), ([97], [2])]).map Prod.fst ∧
    (Postings.new [([98], [3, 1]), ([97], [2])]).1.map Prod.snd
        = offsetsFrom 0 (postingsEntries [([98], [3, 1]), ([97], [2])]) ∧
    (∀ pe ∈ List.zip (Postings.new [([98], [3, 1]), ([97], [2])]).1
        (postingsEntries [([98], [3, 1]), ([97], [2])]),
      Postings.postings (Postings.new [([98], [3, 1]), ([97], [2])]).2 pe.1.2
        = some pe.2.2) :=
  postings_new_layout_and_readback [([98], [3, 1]), ([97], [2])]
    (by decide) (by decide)

/-- DocStoreInfo (doc_store.rs): record offset and compressed payload
length. -/
structure DocStoreInfoM where
  offset : Nat
  length : Nat
deriving DecidableEq

/-- Record-writing loop of DocStore::new (doc_store.rs, lines 51-68): for
each already-compressed document, append `doc_id ‖ len ‖ payload` and record
`(offset, len)` in the index; the offset advances by `16 + len`. -/
def docStoreRecords : List (DocId × List Nat) → Nat →
    List (DocId × DocStoreInfoM) × List Nat
  | [], _ => ([], [])
  | (id, content) :: rest, off =>
    let tail := docStoreRecords rest (off + 2 * U64_NUM_BYTE + content.length)
    ((id, ⟨off, content.length⟩) :: tail.1,
      (u64le id ++ (u64le content.length ++ content)) ++ tail.2)

/-- DocStore::new (doc_store.rs, lines 36-73): compress every document with
zstd (`comp`, kept abstract) and stream the records.  The hashbrown iteration
order is arbitrary; the theorems below quantify over the list order, which
covers every iteration order. -/
def DocStore.new (docs : List (DocId × List Nat)) (comp : List Nat → List Nat) :
    List (DocId × DocStoreInfoM) × List Nat :=
  docStoreRecords (docs.map (fun p => (p.1, comp p.2))) 0

/-- File walk of DocStore::open (doc_store.rs, lines 75-106): starting at
offset 0, read `(id, len)` prefixes, skip `len` payload bytes, and rebuild
the index; a read past the end of the file (a truncated record) is an I/O
error, modelled as `none`. -/
def docStoreScan (file : List Nat) (off : Nat) :
    Option (List (DocId × DocStoreInfoM)) :=
  if _h : file.length ≤ off then some []
  else
    match readU64 file off, readU64 file (off + U64_NUM_BYTE) with
    | some id, some len =>
      match docStoreScan file (off + 2 * U64_NUM_BYTE + len) with
      | some rest => some ((id, ⟨off, len⟩) :: rest)
      | none => none
    | _, _ => none
termination_by file.length - off
decreasing_by
  simp only [U64_NUM_BYTE] at *
  omega

/-- DocStore::open (doc_store.rs). -/
def DocStore.open (file : List Nat) : Option (List (DocId × DocStoreInfoM)) :=
  docStoreScan file 0

/-- HashMap::get over the doc-store index. -/
def dsLookup (m : List (DocId × DocStoreInfoM)) (i : DocId) :
    Option DocStoreInfoM :=
  match m with
  | [] => none
  | (k, v) :: rest => if k = i then some v else dsLookup rest i

/-- DocStore::fetch_doc (doc_store.rs, lines 108-116): look the id up, slice
`store[offset + 16 .. offset + 16 + length]`, decompress (`decomp`, kept
abstract — both sides of the round trip decode identical slices). -/
def DocStore.fetch_doc (index : List (DocId × DocStoreInfoM)) (file : List Nat)
    (decomp : List Nat → List Nat) (i : DocId) : Option (List Nat) :=
  match dsLookup index i with
  | none => none
  | some info =>
    some (decomp ((file.drop (info.offset + 2 * U64_NUM_BYTE)).take info.length))

/-- Finalized segment (segment.rs): the FST content, the postings bytes, the
doc-store index and the doc-store bytes. -/
structure SegmentM where
  fstMap : List (Term × Nat)
  postFile : List Nat
  docIndex : List (DocId × DocStoreInfoM)
  docFile : List Nat
deriving DecidableEq

/-- WritableSegment::into_segment (segment.rs, lines 53-66): build the
postings and the doc store from the in-memory maps. -/
def WritableSegmentM.into_segment (ws : WritableSegmentM)
    (comp : List Nat → List Nat) : SegmentM :=
  ⟨(Postings.new ws.terms).1, (Postings.new ws.terms).2,
    (DocStore.new ws.documents comp).1, (DocStore.new ws.documents comp).2⟩

/-- Segment::open (segment.rs, lines 99-107): `Postings::open` memory-maps
the same two postings files — reading back the FST that `MapBuilder` wrote is
an identity of the fst crate, so the FST content and postings bytes carry
over unchanged — while `DocStore::open` rebuilds the document index by
walking `docs.store`. -/
def Segment.openM (fstMap : List (Term × Nat)) (postFile docFile : List Nat) :
    Option SegmentM :=
  match DocStore.open docFile with
  | some idx => some ⟨fstMap, postFile, idx, docFile⟩
  | none => none

theorem docStoreScan_records (docs : List (DocId × List Nat)) : ∀ (pre : List Nat),
    (∀ p ∈ docs, p.1 < 2 ^ 64) → (∀ p ∈ docs, p.2.length < 2 ^ 64) →
    docStoreScan (pre ++ (docStoreRecords docs pre.length).2) pre.length
      = some (docStoreRecords docs pre.length).1 := by
  induction docs with
  | nil =>
    intro pre _ _
    have hle : (pre ++ (docStoreRecords [] pre.length).2).length ≤ pre.length := by
      simp [docStoreRecords]
    unfold docStoreScan
    rw [dif_pos hle]
    simp [docStoreRecords]
  | cons p rest ih =>
    intro pre hid hlen
    obtain ⟨id, c⟩ := p
    have hidv : id < 2 ^ 64 := hid (id, c) (by simp)
    have hlenv : c.length < 2 ^ 64 := hlen (id, c) (by simp)
    have hfile : pre ++ (docStoreRecords ((id, c) :: rest) pre.length).2
        = pre ++ (u64le id ++ (u64le c.length ++ (c ++
            (docStoreRecords rest (pre.length + 2 * U64_NUM_BYTE + c.length)).2))) := by
      simp [docStoreRecords, List.append_assoc]
    have hlt : ¬ (pre ++ (docStoreRecords ((id, c) :: rest) pre.length).2).length
        ≤ pre.length := by
      rw [hfile]
      simp [u64le_length]
    have hr1 : readU64 (pre ++ (docStoreRecords ((id, c) :: rest) pre.length).2)
        pre.length = some id := by
      rw [hfile]
      exact readU64_append pre id _ hidv
    have hpre2 : (pre ++ u64le id).length = pre.length + U64_NUM_BYTE := by
      simp [u64le_length, U64_NUM_BYTE]
    have hr2 : readU64 (pre ++ (docStoreRecords ((id, c) :: rest) pre.length).2)
        (pre.length + U64_NUM_BYTE) = some c.length := by
      rw [hfile, ← hpre2, ← List.append_assoc]
      exact readU64_append (pre ++ u64le id) c.length _ hlenv
    have hpre3 : (pre ++ (u64le id ++ (u64le c.length ++ c))).length
        = pre.length + 2 * U64_NUM_BYTE + c.length := by
      simp [u64le_length, U64_NUM_BYTE]
      omega
    have hrec := ih (pre ++ (u64le id ++ (u64le c.length ++ c)))
      (fun q hq => hid q (by simp [hq]))
      (fun q hq => hlen q (by simp [hq]))
    rw [hpre3] at hrec
    have hfile2 : pre ++ (docStoreRecords ((id, c) :: rest) pre.length).2
        = (pre ++ (u64le id ++ (u64le c.length ++ c))) ++
            (docStoreRecords rest (pre.length + 2 * U64_NUM_BYTE + c.length)).2 := by
      simp [docStoreRecords, List.append_assoc]
    unfold docStoreScan
    rw [dif_neg hlt, hr1, hr2, hfile2]
    simp only [List.append_assoc] at hrec
    simp [hrec, docStoreRecords]

/-- C4: finalizing a writable segment and re-opening the same files yields a
segment with an identical doc-store index — hence identical `fetch_doc`
results for every id — and identical FST content and postings bytes — hence
identical `search` results for every query. -/
theorem into_segment_open_roundtrip (ws : WritableSegmentM)
    (comp : List Nat → List Nat)
    (hid : ∀ p ∈ ws.documents, p.1 < 2 ^ 64)
    (hlen : ∀ p ∈ ws.documents, (comp p.2).length < 2 ^ 64) :
    Segment.openM (ws.into_segment comp).fstMap (ws.into_segment comp).postFile
        (ws.into_segment comp).docFile = some (ws.into_segment comp) ∧
    (∀ seg2, Segment.openM (ws.into_segment comp).fstMap
        (ws.into_segment comp).postFile (ws.into_segment comp).docFile
          = some seg2 →
      (∀ decomp i, DocStore.fetch_doc seg2.docIndex seg2.docFile decomp i =
          DocStore.fetch_doc (ws.into_segment comp).docIndex
            (ws.into_segment comp).docFile decomp i) ∧
      (∀ q, evaluate_query seg2.fstMap seg2.postFile q =
          evaluate_query (ws.into_segment comp).fstMap
            (ws.into_segment comp).postFile q)) := by
  have hscan := docStoreScan_records
    (ws.documents.map (fun p => (p.1, comp p.2))) []
    (by
      intro p hp
      obtain ⟨q, hq, rfl⟩ := List.mem_map.mp hp
      exact hid q hq)
    (by
      intro p hp
      obtain ⟨q, hq, rfl⟩ := List.mem_map.mp hp
      exact hlen q hq)
  simp only [List.length_nil, List.nil_append] at hscan
  have hopen : Segment.openM (ws.into_segment comp).fstMap
      (ws.into_segment comp).postFile (ws.into_segment comp).docFile
        = some (ws.into_segment comp) := by
    simp only [Segment.openM, WritableSegmentM.into_segment, DocStore.open,
      DocStore.new]
    rw [hscan]
  refine ⟨hopen, ?_⟩
  intro seg2 hseg2
  rw [hopen] at hseg2
  cases hseg2
  exact ⟨fun _ _ => rfl, fun _ => rfl⟩

/-- Witness for C4 with one document and the identity compressor. -/
theorem into_segment_open_roundtrip_witness :
    Segment.openM ((⟨[([97], [1])], [(1, [120, 121])], 2⟩ :
          WritableSegmentM).into_segment id).fstMap
        ((⟨[([97], [1])], [(1, [120, 121])], 2⟩ :
          WritableSegmentM).into_segment id).postFile
        ((⟨[([97], [1])], [(1, [120, 121])], 2⟩ :
          WritableSegmentM).into_segment id).docFile
      = some ((⟨[([97], [1])], [(1, [120, 121])], 2⟩ :
          WritableSegmentM).into_segment id) :=
  (into_segment_open_roundtrip
      (⟨[([97], [1])], [(1, [120, 121])], 2⟩ : WritableSegmentM) id
      (by decide) (by decide)).1

end ClickTsdb
